import Mathlib

/-!
Shallow embedding of the pagegraph-rust core (src/src/graph.rs and the
query layer used by src/pagegraph-cli/src/adblock_rules.rs), together with
theorems settling the frozen claims about it.

Machine integers are modelled as `Nat` with explicit bounds where overflow
or the word size matters (`usize` is 64-bit, `u128` is 128-bit).
-/

namespace PageGraphRust

/-- Maximum value of a 64-bit `usize` (the initial value of the private
descending id counters in `PageGraph::new`). -/
def USIZE_MAX : Nat := 2 ^ 64 - 1

/-- One past the maximum value of a `u128`: the overflow modulus used by
checked `u128` arithmetic. -/
def U128_SIZE : Nat := 2 ^ 128

/-- The payload of `struct FrameId(u128)`; the `u128` bound `val < U128_SIZE`
is carried as a hypothesis where it matters. -/
structure FrameId where
  val : Nat
deriving DecidableEq

/-- Numeric value of one hexadecimal digit character, as recognised by
`u128::from_str_radix(_, 16)`: 0-9, a-f and A-F (case-insensitive). -/
def hexDigitVal (c : Char) : Option Nat :=
  if 48 ≤ c.toNat ∧ c.toNat ≤ 57 then some (c.toNat - 48)
  else if 97 ≤ c.toNat ∧ c.toNat ≤ 102 then some (c.toNat - 87)
  else if 65 ≤ c.toNat ∧ c.toNat ≤ 70 then some (c.toNat - 55)
  else none

/-- Whether a character is a hexadecimal digit (either case). -/
def isHexDigitChar (c : Char) : Bool := (hexDigitVal c).isSome

/-- The digit-accumulation loop of `u128::from_str_radix(_, 16)`: for each
character, `result = result.checked_mul(16)?.checked_add(digit)?`; a
non-digit character or overflow past `u128::MAX` is a parse error. -/
def parseHexDigitsU128 : List Char → Nat → Option Nat
  | [], acc => some acc
  | c :: cs, acc =>
    match hexDigitVal c with
    | none => none
    | some d =>
      if acc * 16 + d < U128_SIZE then parseHexDigitsU128 cs (acc * 16 + d)
      else none

/-- Semantics of `u128::from_str_radix(s, 16)`: an empty string fails; an
optional leading plus sign is accepted (a leading minus sign is not a digit
for an unsigned type and fails); then at least one hex digit must follow. -/
def fromStrRadix16 (s : List Char) : Option Nat :=
  match s with
  | [] => none
  | c :: rest =>
    if c = '+' then (if rest.isEmpty then none else parseHexDigitsU128 rest 0)
    else parseHexDigitsU128 (c :: rest) 0

/-- Semantics of `impl From<&str> for FrameId`: assert the length is exactly
32, then `u128::from_str_radix(v, 16)`; an assertion or parse failure aborts,
modelled as `none`. -/
def FrameId.fromStr (s : List Char) : Option FrameId :=
  if s.length = 32 then (fromStrRadix16 s).map FrameId.mk else none

/-- Upper-case hexadecimal digit character for a value below 16, as produced
by the Rust `X` format specifier. -/
def hexDigitUpper (d : Nat) : Char :=
  match d with
  | 0 => '0' | 1 => '1' | 2 => '2' | 3 => '3' | 4 => '4'
  | 5 => '5' | 6 => '6' | 7 => '7' | 8 => '8' | 9 => '9'
  | 10 => 'A' | 11 => 'B' | 12 => 'C' | 13 => 'D' | 14 => 'E'
  | _ => 'F'

/-- Upper-case hexadecimal digits of `n`, most significant first, as produced
by the Rust `X` format specifier (a single digit for values below 16). -/
def toHexUpper (n : Nat) : List Char :=
  if hsmall : n < 16 then [hexDigitUpper n]
  else toHexUpper (n / 16) ++ [hexDigitUpper (n % 16)]
  termination_by n
  decreasing_by exact Nat.div_lt_self (by omega) (by omega)

/-- Semantics of `impl Display for FrameId`, format specifier 0>32X:
upper-case hex digits of the payload, left-padded with the zero character to
a minimum width of 32. -/
def FrameId.format (f : FrameId) : List Char :=
  List.replicate (32 - (toHexUpper f.val).length) '0' ++ toHexUpper f.val

/-- The sixteen upper-case hexadecimal digit characters. -/
def upperHexDigits : List Char :=
  ['0', '1', '2', '3', '4', '5', '6', '7', '8', '9', 'A', 'B', 'C', 'D', 'E', 'F']

/-- Composite identifier (`struct GraphItemId`): raw numeric id plus optional
frame scope. -/
structure GraphItemId where
  id : Nat
  frame_id : Option FrameId
deriving DecidableEq

/-- The derived `PartialEq` on `GraphItemId`: field-wise equality. -/
def GraphItemId.beq (a b : GraphItemId) : Bool :=
  decide (a.id = b.id) && decide (a.frame_id = b.frame_id)

/-- The derived `Ord` on `u128`, hence on the `FrameId` payload. -/
def FrameId.cmp (a b : FrameId) : Ordering := compare a.val b.val

/-- The derived `Ord` on `Option`: `None` is less than `Some`, and two `Some`
values are compared by payload. -/
def optionFrameCompare : Option FrameId → Option FrameId → Ordering
  | none, none => Ordering.eq
  | none, some _ => Ordering.lt
  | some _, none => Ordering.gt
  | some a, some b => FrameId.cmp a b

/-- The derived `Ord` on `GraphItemId`: compare the `id` field first, then the
`frame_id` field. -/
def GraphItemId.cmp (a b : GraphItemId) : Ordering :=
  (compare a.id b.id).then (optionFrameCompare a.frame_id b.frame_id)

/-- Semantics of `impl From<usize> for GraphItemId`: the raw id with no frame
scope attached. -/
def GraphItemId.fromUsize (v : Nat) : GraphItemId := ⟨v, none⟩

/-- Semantics of `GraphItemId::copy_for_frame_id`: a new id with the same raw
id and the given frame scope; the receiver is untouched (the Rust method takes
a shared reference and returns a fresh value). -/
def GraphItemId.copy_for_frame_id (x : GraphItemId) (f : FrameId) : GraphItemId :=
  ⟨x.id, some f⟩

/-- Identifier of a node (`struct NodeId(GraphItemId)`). -/
structure NodeId where
  gid : GraphItemId
deriving DecidableEq

/-- Semantics of `impl From<usize> for NodeId`. -/
def NodeId.fromUsize (v : Nat) : NodeId := ⟨GraphItemId.fromUsize v⟩

/-- Semantics of `NodeId::copy_for_frame_id`. -/
def NodeId.copy_for_frame_id (x : NodeId) (f : FrameId) : NodeId :=
  ⟨x.gid.copy_for_frame_id f⟩

/-- Semantics of `HasFrameId::get_frame_id` for `NodeId`. -/
def NodeId.get_frame_id (x : NodeId) : Option FrameId := x.gid.frame_id

/-- Identifier of an edge (`struct EdgeId(GraphItemId)`). -/
structure EdgeId where
  gid : GraphItemId
deriving DecidableEq

/-- Semantics of `impl From<usize> for EdgeId`. -/
def EdgeId.fromUsize (v : Nat) : EdgeId := ⟨GraphItemId.fromUsize v⟩

/-- Semantics of `EdgeId::copy_for_frame_id`. -/
def EdgeId.copy_for_frame_id (x : EdgeId) (f : FrameId) : EdgeId :=
  ⟨x.gid.copy_for_frame_id f⟩

/-- Semantics of `HasFrameId::get_frame_id` for `EdgeId`. -/
def EdgeId.get_frame_id (x : EdgeId) : Option FrameId := x.gid.frame_id

/-- The `HasFrameId` trait. -/
class HasFrameId (α : Type) where
  get_frame_id : α → Option FrameId

instance : HasFrameId NodeId := ⟨NodeId.get_frame_id⟩

instance : HasFrameId EdgeId := ⟨EdgeId.get_frame_id⟩

/-- Semantics of the free function `is_same_frame_context`: equality of the
optional frame scopes of the two arguments. -/
def is_same_frame_context {α β : Type} [HasFrameId α] [HasFrameId β]
    (a : α) (b : β) : Bool :=
  decide (HasFrameId.get_frame_id a = HasFrameId.get_frame_id b)

/-- Modelled from the spec: `NodeType` is defined in src/types.rs, which is
not among the provided sources. Per the spec, a Resource variant carries a URL
string and the other kinds are opaque to the core. -/
inductive NodeType where
  | Resource (url : List Char)
  | Other (tag : Nat)
deriving DecidableEq

/-- Modelled from the spec: `EdgeType` is defined in src/types.rs, which is
not among the provided sources. Per the spec, a RequestStart variant carries a
request identifier and the other kinds are opaque to the core. -/
inductive EdgeType where
  | RequestStart (request_id : Nat)
  | Other (tag : Nat)
deriving DecidableEq

/-- A node (`struct Node`): identity, signed timestamp, variant payload. -/
structure Node where
  id : NodeId
  node_timestamp : Int
  node_type : NodeType
deriving DecidableEq

/-- An edge (`struct Edge`): identity, optional timestamp, variant payload,
and the source and target node ids it connects. -/
structure Edge where
  id : EdgeId
  edge_timestamp : Option Int
  edge_type : EdgeType
  source : NodeId
  target : NodeId
deriving DecidableEq

/-- Semantics of the hand-written `impl PartialEq for Edge`: comparison of the
`id` fields only, every other field ignored. -/
def Edge.beq (a b : Edge) : Bool := decide (a.id = b.id)

/-- Trace time span (`struct PageGraphTime`). -/
structure PageGraphTime where
  start : Nat
  stop : Nat
deriving DecidableEq

/-- Trace-level metadata (`struct PageGraphDescriptor`). -/
structure PageGraphDescriptor where
  version : List Char
  about : List Char
  url : List Char
  is_root : Bool
  frame_id : FrameId
  time : PageGraphTime
deriving DecidableEq

/-- The main PageGraph data structure. The two `HashMap`s are association
lists with unique keys; the `DiGraphMap<NodeId, Vec<EdgeId>>` adjacency
structure is an association list keyed by ordered node pair, each entry
holding the insertion-ordered list of parallel edge ids for that pair. -/
structure PageGraph where
  desc : PageGraphDescriptor
  edges : List (EdgeId × Edge)
  nodes : List (NodeId × Node)
  graph : List ((NodeId × NodeId) × List EdgeId)
  next_node_id : Nat
  next_edge_id : Nat

/-- Semantics of `PageGraph::new`: both private counters start at the maximum
representable `usize` value. -/
def PageGraph.new (desc : PageGraphDescriptor) (edges : List (EdgeId × Edge))
    (nodes : List (NodeId × Node)) (graph : List ((NodeId × NodeId) × List EdgeId)) :
    PageGraph :=
  ⟨desc, edges, nodes, graph, USIZE_MAX, USIZE_MAX⟩

/-- `HashMap::get` on the edge mapping. -/
def lookupEdge (g : PageGraph) (eid : EdgeId) : Option Edge :=
  (g.edges.find? (fun p => decide (p.1 = eid))).map Prod.snd

/-- `HashMap::get` on the node mapping. -/
def lookupNode (g : PageGraph) (nid : NodeId) : Option Node :=
  (g.nodes.find? (fun p => decide (p.1 = nid))).map Prod.snd

/-- Semantics of `PageGraph::new_edge_id` for a store with edge mapping
`edges` and counter value `counter`: `RefCell::replace_with` stores the
decremented counter and returns the old value, which becomes the new id via
`EdgeId::from(usize)`; the subsequent assertion that the id is not already a
key of the edge mapping panics on failure, modelled as `none`. Under the
hypotheses of the claims the counter never reaches zero, so the truncated
`Nat` decrement agrees with `usize` arithmetic. -/
def new_edge_id (edges : List (EdgeId × Edge)) (counter : Nat) :
    Option (EdgeId × Nat) :=
  let nid := EdgeId.fromUsize counter
  if (edges.find? (fun p => decide (p.1 = nid))).isSome then none
  else some (nid, counter - 1)

/-- Runs `n` successive calls of `new_edge_id` against a fixed edge mapping,
threading the counter; `none` if any assertion fires. -/
def allocRun (edges : List (EdgeId × Edge)) : Nat → Nat → Option (List EdgeId × Nat)
  | 0, c => some ([], c)
  | n + 1, c =>
    match new_edge_id edges c with
    | none => none
    | some (id, c2) =>
      match allocRun edges n c2 with
      | none => none
      | some (ids, cf) => some (id :: ids, cf)

/-- The ids a successful run of `n` allocator calls starting at counter `c`
returns: `c, c - 1, ...` in order. -/
def allocIds (n c : Nat) : List EdgeId :=
  (List.range n).map (fun i => EdgeId.fromUsize (c - i))

/-- Edge ids leaving node `n`: the adjacency entries whose ordered pair has
first component `n` (petgraph edges_directed, Outgoing), their edge-id lists
flattened in order (`PageGraph::edges_iter_directed`). -/
def outgoingEdgeIds (g : PageGraph) (n : NodeId) : List EdgeId :=
  ((g.graph.filter (fun p => decide (p.1.1 = n))).map (fun p => p.2)).flatten

/-- Edge ids entering node `n`: the adjacency entries whose ordered pair has
second component `n` (petgraph edges_directed, Incoming), flattened. -/
def incomingEdgeIds (g : PageGraph) (n : NodeId) : List EdgeId :=
  ((g.graph.filter (fun p => decide (p.1.2 = n))).map (fun p => p.2)).flatten

/-- Semantics of `PageGraph::outgoing_edges`: each flattened edge id resolved
through the edge mapping; a failed `unwrap` is `none`. -/
def outgoing_edges (g : PageGraph) (node : Node) : List (Option Edge) :=
  (outgoingEdgeIds g node.id).map (lookupEdge g)

/-- Semantics of `PageGraph::incoming_edges`. -/
def incoming_edges (g : PageGraph) (node : Node) : List (Option Edge) :=
  (incomingEdgeIds g node.id).map (lookupEdge g)

/-- Neighbor ids reachable from `n` along outgoing adjacency entries
(petgraph neighbors_directed, Outgoing): one occurrence per adjacency entry,
i.e. per distinct ordered pair. -/
def outgoingNeighborIds (g : PageGraph) (n : NodeId) : List NodeId :=
  (g.graph.filter (fun p => decide (p.1.1 = n))).map (fun p => p.1.2)

/-- Neighbor ids reaching `n` along incoming adjacency entries. -/
def incomingNeighborIds (g : PageGraph) (n : NodeId) : List NodeId :=
  (g.graph.filter (fun p => decide (p.1.2 = n))).map (fun p => p.1.1)

/-- Semantics of `PageGraph::outgoing_neighbors` (`nodes_iter_directed`):
each neighbor id resolved through the node mapping; a failed `unwrap` is
`none`. -/
def outgoing_neighbors (g : PageGraph) (node : Node) : List (Option Node) :=
  (outgoingNeighborIds g node.id).map (lookupNode g)

/-- Semantics of `PageGraph::incoming_neighbors`. -/
def incoming_neighbors (g : PageGraph) (node : Node) : List (Option Node) :=
  (incomingNeighborIds g node.id).map (lookupNode g)

/-- Semantics of `PageGraph::source_node`: resolve the source endpoint of an
edge in the node mapping; the panic on a dangling reference is `none`. -/
def source_node (g : PageGraph) (e : Edge) : Option Node := lookupNode g e.source

/-- Semantics of `PageGraph::target_node`. -/
def target_node (g : PageGraph) (e : Edge) : Option Node := lookupNode g e.target

/-- Consistency of the adjacency structure with the edge mapping: every edge
id listed under the ordered pair (a, b) resolves in the edge mapping to an
edge whose source is a and whose target is b. -/
def adjConsistent (g : PageGraph) : Bool :=
  g.graph.all (fun p => p.2.all (fun eid =>
    match lookupEdge g eid with
    | some e => decide (e.source = p.1.1 ∧ e.target = p.1.2)
    | none => false))

/-- Every edge in the edge mapping has both endpoints present as keys of the
node mapping. -/
def edgeEndpointsPresent (g : PageGraph) : Bool :=
  g.edges.all (fun p =>
    (lookupNode g (Prod.snd p).source).isSome && (lookupNode g (Prod.snd p).target).isSome)

/-- The node mapping is well formed: each entry stores a node carrying its own
key as its id. -/
def nodesWellFormed (g : PageGraph) : Bool :=
  g.nodes.all (fun p => decide ((Prod.snd p).id = p.1))

/-- Modelled from the spec: `PageGraph::resources_matching_filters` is defined
in a source file that is not among the provided sources (only its caller in
pagegraph-cli/src/adblock_rules.rs is). Per spec section 4.4, the rule
matching itself is an external, swappable capability, passed here as the two
predicates `matchesBlocking` and `matchesException`; the result is the
restriction of the node mapping to Resource nodes whose URL is matched by at
least one rule of the requested class. -/
def resources_matching_filters (g : PageGraph)
    (matchesBlocking matchesException : List Char → List Char → Bool)
    (filter_rules : List (List Char)) (only_exceptions : Bool) :
    List (NodeId × Node) :=
  g.nodes.filter (fun p =>
    match (Prod.snd p).node_type with
    | NodeType.Resource url =>
      if only_exceptions then filter_rules.any (fun r => matchesException r url)
      else filter_rules.any (fun r => matchesBlocking r url)
    | NodeType.Other _ => false)

/-- Claim C9: two Edge values compare equal under the hand-written PartialEq
if and only if their ids are equal, regardless of timestamps, edge kinds,
source or target fields. -/
theorem edge_eq_iff_id_eq (e1 e2 : Edge) :
    Edge.beq e1 e2 = true ↔ e1.id = e2.id := by
  simp [Edge.beq]

/-- Claim C7: GraphItemId equality is field-wise (equal raw ids and equal
optional frame scopes); ids with equal raw id but differing frame scope are
unequal; and the derived total order is lexicographic, raw id first, frame
scope second. -/
theorem graphItemId_eq_and_ord (x y : GraphItemId) :
    (GraphItemId.beq x y = true ↔ x.id = y.id ∧ x.frame_id = y.frame_id) ∧
    (x.id = y.id → x.frame_id ≠ y.frame_id → GraphItemId.beq x y = false) ∧
    (GraphItemId.cmp x y = Ordering.lt ↔
      x.id < y.id ∨ (x.id = y.id ∧ optionFrameCompare x.frame_id y.frame_id = Ordering.lt)) := by
  refine ⟨by simp [GraphItemId.beq], ?_, ?_⟩
  · intro hid hf
    simp [GraphItemId.beq, hid, hf]
  · unfold GraphItemId.cmp
    rcases Nat.lt_trichotomy x.id y.id with h | h | h
    · have hc : compare x.id y.id = Ordering.lt := by
        simpa [Nat.compare_eq_lt] using h
      rw [hc]
      simp [Ordering.then, h]
    · have hc : compare x.id y.id = Ordering.eq := by
        simpa [Nat.compare_eq_eq] using h
      rw [hc]
      simp [Ordering.then, h, Nat.lt_irrefl]
    · have hc : compare x.id y.id = Ordering.gt := by
        simpa [Nat.compare_eq_gt] using h
      constructor
      · intro hcontra
        rw [hc] at hcontra
        simp [Ordering.then] at hcontra
      · rintro (hl | ⟨he, _⟩)
        · omega
        · omega

/-- Witness for claim C7 at a concrete input: raw id 1 with no frame scope
versus raw id 1 scoped to frame 0 compare unequal. -/
theorem graphItemId_eq_and_ord_witness :
    GraphItemId.beq ⟨1, none⟩ ⟨1, some ⟨0⟩⟩ = false :=
  (graphItemId_eq_and_ord ⟨1, none⟩ ⟨1, some ⟨0⟩⟩).2.1 rfl (by simp)

/-- Claim C8: re-scoping a NodeId or EdgeId yields a new id with the same raw
numeric id and exactly the requested frame scope; the operation is a pure
value operation (the Rust method takes a shared reference and returns a fresh
value, leaving the receiver untouched). -/
theorem copy_for_frame_id_spec (x : NodeId) (y : EdgeId) (f : FrameId) :
    (x.copy_for_frame_id f).gid.id = x.gid.id ∧
    (x.copy_for_frame_id f).get_frame_id = some f ∧
    (y.copy_for_frame_id f).gid.id = y.gid.id ∧
    (y.copy_for_frame_id f).get_frame_id = some f := by
  simp [NodeId.copy_for_frame_id, EdgeId.copy_for_frame_id,
    GraphItemId.copy_for_frame_id, NodeId.get_frame_id, EdgeId.get_frame_id]

/-- Claim C10: every id minted by the allocator carries no frame scope, is
unequal to every frame-scoped EdgeId (raw ids coinciding or not), and any two
allocator-minted ids are in the same frame context. -/
theorem new_edge_id_frame_scope (edges edges2 : List (EdgeId × Edge))
    (c c2 : Nat) (id id2 : EdgeId) (cA cB : Nat)
    (h1 : new_edge_id edges c = some (id, cA))
    (h2 : new_edge_id edges2 c2 = some (id2, cB)) :
    id.get_frame_id = none ∧
    (∀ e : EdgeId, e.get_frame_id ≠ none → id ≠ e) ∧
    is_same_frame_context id id2 = true := by
  unfold new_edge_id at h1 h2
  by_cases hf1 : (edges.find? (fun p => decide (p.1 = EdgeId.fromUsize c))).isSome
  · simp [hf1] at h1
  by_cases hf2 : (edges2.find? (fun p => decide (p.1 = EdgeId.fromUsize c2))).isSome
  · simp [hf2] at h2
  simp [hf1] at h1
  simp [hf2] at h2
  obtain ⟨hid, _⟩ := h1
  obtain ⟨hid2, _⟩ := h2
  subst hid
  subst hid2
  refine ⟨rfl, ?_, ?_⟩
  · intro e he hcontra
    apply he
    rw [← hcontra]
    rfl
  · rfl

/-- Witness for claim C10 at concrete inputs: the ids minted at counter values
7 and 9 over an empty edge mapping share the (absent) frame context. -/
theorem new_edge_id_frame_scope_witness :
    is_same_frame_context (EdgeId.fromUsize 7) (EdgeId.fromUsize 9) = true :=
  (new_edge_id_frame_scope [] [] 7 9 (EdgeId.fromUsize 7) (EdgeId.fromUsize 9)
    6 8 rfl rfl).2.2

/-- Value of a list of hexadecimal digit characters, accumulated left to
right on top of `acc` (the overflow-free value of the parse loop). -/
def hexFold (l : List Char) (acc : Nat) : Nat :=
  l.foldl (fun a c => a * 16 + ((hexDigitVal c).getD 0)) acc

theorem hexDigitVal_le (c : Char) (d : Nat) (h : hexDigitVal c = some d) :
    d ≤ 15 := by
  unfold hexDigitVal at h
  split_ifs at h with h1 h2 h3
  · simp only [Option.some.injEq] at h
    omega
  · simp only [Option.some.injEq] at h
    omega
  · simp only [Option.some.injEq] at h
    omega

theorem optionMapIsSome {α β : Type} (f : α → β) (o : Option α) :
    (o.map f).isSome = o.isSome := by
  cases o <;> rfl

theorem parseHexDigitsU128_isSome (l : List Char) : ∀ acc : Nat,
    (acc + 1) * 16 ^ l.length ≤ U128_SIZE →
    ((parseHexDigitsU128 l acc).isSome = true ↔ l.all isHexDigitChar = true) := by
  induction l with
  | nil => intro acc _; simp [parseHexDigitsU128]
  | cons c cs ih =>
    intro acc hb
    rw [List.length_cons, pow_succ] at hb
    cases hv : hexDigitVal c with
    | none => simp [parseHexDigitsU128, List.all_cons, isHexDigitChar, hv]
    | some d =>
      have hd : d ≤ 15 := hexDigitVal_le c d hv
      have h16 : (1 : Nat) ≤ 16 ^ cs.length := Nat.one_le_pow _ _ (by omega)
      have hstep : (acc * 16 + d + 1) * 16 ^ cs.length ≤ U128_SIZE := by
        have hm : (acc * 16 + d + 1) * 16 ^ cs.length ≤ ((acc + 1) * 16) * 16 ^ cs.length :=
          Nat.mul_le_mul_right _ (by omega)

        calc (acc * 16 + d + 1) * 16 ^ cs.length
            ≤ ((acc + 1) * 16) * 16 ^ cs.length := hm
          _ = (acc + 1) * (16 ^ cs.length * 16) := by ring
          _ ≤ U128_SIZE := hb
      have hself : acc * 16 + d + 1 ≤ (acc * 16 + d + 1) * 16 ^ cs.length := by
        have := Nat.mul_le_mul_left (acc * 16 + d + 1) h16
        omega
      have hlt : acc * 16 + d < U128_SIZE := by omega
      simp only [parseHexDigitsU128, hv]
      rw [if_pos hlt]
      simp only [List.all_cons, isHexDigitChar, hv, Option.isSome_some, Bool.true_and]
      exact ih (acc * 16 + d) hstep

theorem parseHexDigitsU128_eq (l : List Char) : ∀ acc : Nat,
    (acc + 1) * 16 ^ l.length ≤ U128_SIZE → l.all isHexDigitChar = true →
    parseHexDigitsU128 l acc = some (hexFold l acc) := by
  induction l with
  | nil => intro acc _ _; simp [parseHexDigitsU128, hexFold]
  | cons c cs ih =>
    intro acc hb hall
    rw [List.length_cons, pow_succ] at hb
    rw [List.all_cons] at hall
    rw [Bool.and_eq_true] at hall
    have hc : isHexDigitChar c = true := hall.1
    have hcs : cs.all isHexDigitChar = true := hall.2
    obtain ⟨d, hv⟩ := Option.isSome_iff_exists.mp hc
    have hd : d ≤ 15 := hexDigitVal_le c d hv
    have h16 : (1 : Nat) ≤ 16 ^ cs.length := Nat.one_le_pow _ _ (by omega)
    have hstep : (acc * 16 + d + 1) * 16 ^ cs.length ≤ U128_SIZE := by
      have hm : (acc * 16 + d + 1) * 16 ^ cs.length ≤ ((acc + 1) * 16) * 16 ^ cs.length :=
        Nat.mul_le_mul_right _ (by omega)
      calc (acc * 16 + d + 1) * 16 ^ cs.length
          ≤ ((acc + 1) * 16) * 16 ^ cs.length := hm
        _ = (acc + 1) * (16 ^ cs.length * 16) := by ring
        _ ≤ U128_SIZE := hb
    have hself : acc * 16 + d + 1 ≤ (acc * 16 + d + 1) * 16 ^ cs.length := by
      have := Nat.mul_le_mul_left (acc * 16 + d + 1) h16
      omega
    have hlt : acc * 16 + d < U128_SIZE := by omega
    simp only [parseHexDigitsU128, hv]
    rw [if_pos hlt]
    rw [ih (acc * 16 + d) hstep hcs]
    simp [hexFold, hv]

/-- Claim C4, counterexample: the 32-character string made of a plus sign
followed by 31 zero digits is not all-hexadecimal, yet parsing it as a
FrameId succeeds, because `u128::from_str_radix` accepts an optional leading
plus sign. -/
theorem frameId_parse_plus_counterexample :
    (FrameId.fromStr ('+' :: List.replicate 31 '0')).isSome = true ∧
    ('+' :: List.replicate 31 '0').all isHexDigitChar = false ∧
    ('+' :: List.replicate 31 '0').length = 32 := by
  refine ⟨?_, ?_, by simp⟩
  · rfl
  · rfl

/-- Claim C4 as amended: parsing a string as a FrameId succeeds if and only
if its length is exactly 32 and either every character is a hexadecimal digit
or the first character is a plus sign and the remaining 31 characters are all
hexadecimal digits; any other length or content fails. -/
theorem frameId_parse_characterization (s : List Char) :
    (FrameId.fromStr s).isSome = true ↔
      s.length = 32 ∧
      (s.all isHexDigitChar = true ∨
        (s.head? = some '+' ∧ s.tail.all isHexDigitChar = true)) := by
  unfold FrameId.fromStr
  by_cases hl : s.length = 32
  · rw [if_pos hl]
    rw [optionMapIsSome]
    simp only [hl, true_and]
    cases s with
    | nil => simp at hl
    | cons c rest =>
      have hrest : rest.length = 31 := by simpa using hl
      by_cases hc : c = '+'
      · subst hc
        have hne : rest.isEmpty = false := by
          cases rest with
          | nil => simp at hrest
          | cons a l => rfl
        simp only [fromStrRadix16, hne, if_true, Bool.false_eq_true, if_false, if_pos]
        have hplus : isHexDigitChar '+' = false := rfl
        rw [parseHexDigitsU128_isSome rest 0 (by rw [hrest]; norm_num [U128_SIZE])]
        simp [List.all_cons, hplus]
      · simp only [fromStrRadix16, if_neg hc]
        rw [parseHexDigitsU128_isSome (c :: rest) 0
          (by rw [List.length_cons, hrest]; norm_num [U128_SIZE])]
        simp [hc]
  · rw [if_neg hl]
    simp [hl]

theorem hexDigitVal_hexDigitUpper (d : Nat) (h : d < 16) :
    hexDigitVal (hexDigitUpper d) = some d := by
  interval_cases d <;> rfl

theorem toHexUpper_all_upperHex (n : Nat) :
    ∀ c ∈ toHexUpper n, c ∈ upperHexDigits := by
  induction n using Nat.strong_induction_on with
  | _ n ih =>
    intro c hc
    rw [toHexUpper] at hc
    by_cases hn : n < 16
    · rw [dif_pos hn] at hc
      rw [List.mem_singleton] at hc
      subst hc
      interval_cases n <;> simp [hexDigitUpper, upperHexDigits]
    · rw [dif_neg hn] at hc
      rcases List.mem_append.mp hc with hmem | hmem
      · exact ih (n / 16) (Nat.div_lt_self (by omega) (by omega)) c hmem
      · rw [List.mem_singleton] at hmem
        subst hmem
        have hm : n % 16 < 16 := Nat.mod_lt _ (by omega)
        interval_cases hni : n % 16 <;> simp [hexDigitUpper, upperHexDigits]

theorem mem_upperHex_isHex (c : Char) (h : c ∈ upperHexDigits) :
    isHexDigitChar c = true := by
  fin_cases h <;> rfl

theorem toHexUpper_length_le (n k : Nat) (hk : 1 ≤ k) (h : n < 16 ^ k) :
    (toHexUpper n).length ≤ k := by
  induction n using Nat.strong_induction_on generalizing k with
  | _ n ih =>
    rw [toHexUpper]
    by_cases hn : n < 16
    · rw [dif_pos hn]
      simpa using hk
    · rw [dif_neg hn]
      rw [List.length_append]
      have hk2 : 2 ≤ k := by
        by_contra hcon
        have : k = 1 := by omega
        subst this
        simp at h
        omega
      have hdiv : n / 16 < 16 ^ (k - 1) := by
        rw [Nat.div_lt_iff_lt_mul (by omega)]
        calc n < 16 ^ k := h
          _ = 16 ^ (k - 1) * 16 := by
            rw [← pow_succ]
            congr 1
            omega
      have := ih (n / 16) (Nat.div_lt_self (by omega) (by omega)) (k - 1) (by omega) hdiv
      simp only [List.length_singleton]
      omega

theorem hexFold_toHexUpper (n : Nat) : ∀ acc : Nat,
    hexFold (toHexUpper n) acc = acc * 16 ^ (toHexUpper n).length + n := by
  induction n using Nat.strong_induction_on with
  | _ n ih =>
    intro acc
    rw [toHexUpper]
    by_cases hn : n < 16
    · rw [dif_pos hn]
      simp [hexFold, hexDigitVal_hexDigitUpper n hn]
    · rw [dif_neg hn]
      unfold hexFold
      rw [List.foldl_append]
      have hrec := ih (n / 16) (Nat.div_lt_self (by omega) (by omega)) acc
      unfold hexFold at hrec
      rw [hrec]
      have hm : n % 16 < 16 := Nat.mod_lt _ (by omega)
      simp only [List.foldl_cons, List.foldl_nil, hexDigitVal_hexDigitUpper (n % 16) hm,
        Option.getD_some, List.length_append, List.length_singleton]
      rw [pow_succ]
      have := Nat.div_add_mod n 16
      ring_nf
      omega

theorem hexFold_replicate_zero (z : Nat) :
    hexFold (List.replicate z '0') 0 = 0 := by
  induction z with
  | zero => rfl
  | succ m ih =>
    rw [List.replicate_succ]
    unfold hexFold at ih ⊢
    simpa using ih

/-- Claim C5: formatting a FrameId always yields an exactly-32-character
string of upper-case hexadecimal digit characters (zero-padded), and parsing
that string back yields the original FrameId. -/
theorem frameId_format_roundtrip (f : FrameId) (hf : f.val < U128_SIZE) :
    (FrameId.format f).length = 32 ∧
    (∀ c ∈ FrameId.format f, c ∈ upperHexDigits) ∧
    FrameId.fromStr (FrameId.format f) = some f := by
  have hpow : f.val < 16 ^ 32 := by
    have : (16 : Nat) ^ 32 = U128_SIZE := by norm_num [U128_SIZE]
    omega
  have hL : (toHexUpper f.val).length ≤ 32 :=
    toHexUpper_length_le f.val 32 (by omega) hpow
  have hlen : (FrameId.format f).length = 32 := by
    rw [FrameId.format, List.length_append, List.length_replicate]
    omega
  have hmem : ∀ c ∈ FrameId.format f, c ∈ upperHexDigits := by
    intro c hc
    rcases List.mem_append.mp hc with hrep | hhex
    · rw [List.eq_of_mem_replicate hrep]
      simp [upperHexDigits]
    · exact toHexUpper_all_upperHex f.val c hhex
  refine ⟨hlen, hmem, ?_⟩
  have hall : (FrameId.format f).all isHexDigitChar = true := by
    rw [List.all_eq_true]
    intro c hc
    exact mem_upperHex_isHex c (hmem c hc)
  have hparse : parseHexDigitsU128 (FrameId.format f) 0 = some f.val := by
    rw [parseHexDigitsU128_eq (FrameId.format f) 0 (by rw [hlen]; norm_num [U128_SIZE]) hall]
    congr 1
    rw [FrameId.format]
    unfold hexFold
    rw [List.foldl_append]
    have h0 : hexFold (List.replicate (32 - (toHexUpper f.val).length) '0') 0 = 0 :=
      hexFold_replicate_zero _
    unfold hexFold at h0
    rw [h0]
    have := hexFold_toHexUpper f.val 0
    unfold hexFold at this
    rw [this]
    omega
  rw [FrameId.fromStr, if_pos hlen]
  cases hfmt : FrameId.format f with
  | nil =>
    rw [hfmt] at hlen
    simp at hlen
  | cons c rest =>
    have hcmem : c ∈ upperHexDigits := by
      apply hmem
      rw [hfmt]
      exact List.mem_cons_self c rest
    have hcne : ¬ c = '+' := by
      intro hcon
      subst hcon
      simp [upperHexDigits] at hcmem
    rw [fromStrRadix16, if_neg hcne, ← hfmt, hparse]
    rfl

/-- Witness for claim C5 at a concrete input: the FrameId with payload 255
formats to 30 zero characters followed by FF, and parsing that string returns
the original value. -/
theorem frameId_format_roundtrip_witness :
    FrameId.fromStr (FrameId.format ⟨255⟩) = some ⟨255⟩ :=
  (frameId_format_roundtrip ⟨255⟩ (by norm_num [U128_SIZE])).2.2

theorem lookupEdge_mem (g : PageGraph) (eid : EdgeId) (e : Edge)
    (h : lookupEdge g eid = some e) : (eid, e) ∈ g.edges := by
  unfold lookupEdge at h
  cases hf : g.edges.find? (fun p => decide (p.1 = eid)) with
  | none =>
    rw [hf] at h
    simp at h
  | some p =>
    rw [hf] at h
    replace h : p.2 = e := by simpa using h
    have hpred := List.find?_some hf
    have hmem := List.mem_of_find?_eq_some hf
    have hkey : p.1 = eid := of_decide_eq_true hpred
    rw [← hkey, ← h, Prod.mk.eta]
    exact hmem

theorem lookupNode_mem (g : PageGraph) (nid : NodeId) (m : Node)
    (h : lookupNode g nid = some m) : (nid, m) ∈ g.nodes := by
  unfold lookupNode at h
  cases hf : g.nodes.find? (fun p => decide (p.1 = nid)) with
  | none =>
    rw [hf] at h
    simp at h
  | some p =>
    rw [hf] at h
    replace h : p.2 = m := by simpa using h
    have hpred := List.find?_some hf
    have hmem := List.mem_of_find?_eq_some hf
    have hkey : p.1 = nid := of_decide_eq_true hpred
    rw [← hkey, ← h, Prod.mk.eta]
    exact hmem

theorem adjConsistent_spec (g : PageGraph) (h : adjConsistent g = true) :
    ∀ p ∈ g.graph, ∀ eid ∈ p.2, ∃ e, lookupEdge g eid = some e ∧
      e.source = p.1.1 ∧ e.target = p.1.2 := by
  intro p hp eid he
  rw [adjConsistent, List.all_eq_true] at h
  have h2 := h p hp
  rw [List.all_eq_true] at h2
  have h3 := h2 eid he
  cases hl : lookupEdge g eid with
  | none =>
    simp only [hl] at h3
    simp at h3
  | some e =>
    simp only [hl] at h3
    exact ⟨e, rfl, of_decide_eq_true h3⟩

theorem nodesWellFormed_spec (g : PageGraph) (h : nodesWellFormed g = true)
    (p : NodeId × Node) (hp : p ∈ g.nodes) : (Prod.snd p).id = p.1 := by
  rw [nodesWellFormed, List.all_eq_true] at h
  exact of_decide_eq_true (h p hp)

theorem lookupNode_id (g : PageGraph) (x : NodeId) (m : Node)
    (hwf : nodesWellFormed g = true) (h : lookupNode g x = some m) :
    m.id = x :=
  nodesWellFormed_spec g hwf (x, m) (lookupNode_mem g x m h)

/-- Claim C2: on a Graph Store satisfying the consistency invariants, every
edge yielded by outgoing_edges of a node has that node id as its source and
source_node resolves it back to the node, and dually every edge yielded by
incoming_edges has the node id as its target and target_node resolves to the
node. -/
theorem traversal_endpoints (g : PageGraph) (n : Node)
    (hadj : adjConsistent g = true)
    (hend : edgeEndpointsPresent g = true)
    (hn : lookupNode g n.id = some n) :
    (∀ x ∈ outgoing_edges g n, ∃ e, x = some e ∧ e.source = n.id ∧
      source_node g e = some n) ∧
    (∀ x ∈ incoming_edges g n, ∃ e, x = some e ∧ e.target = n.id ∧
      target_node g e = some n) := by
  constructor
  · intro x hx
    rw [outgoing_edges] at hx
    rcases List.mem_map.mp hx with ⟨eid, hmem, hxval⟩
    rw [outgoingEdgeIds] at hmem
    rcases List.mem_flatten.mp hmem with ⟨l2, hl2, heid⟩
    rcases List.mem_map.mp hl2 with ⟨p, hpf, hpl⟩
    rcases List.mem_filter.mp hpf with ⟨hpg, hpd⟩
    have hp1 : p.1.1 = n.id := of_decide_eq_true hpd
    subst hpl
    rcases adjConsistent_spec g hadj p hpg eid heid with ⟨e, hle, hsrc, _⟩
    refine ⟨e, ?_, ?_, ?_⟩
    · rw [← hxval, hle]
    · rw [hsrc, hp1]
    · rw [source_node, hsrc, hp1, hn]
  · intro x hx
    rw [incoming_edges] at hx
    rcases List.mem_map.mp hx with ⟨eid, hmem, hxval⟩
    rw [incomingEdgeIds] at hmem
    rcases List.mem_flatten.mp hmem with ⟨l2, hl2, heid⟩
    rcases List.mem_map.mp hl2 with ⟨p, hpf, hpl⟩
    rcases List.mem_filter.mp hpf with ⟨hpg, hpd⟩
    have hp2 : p.1.2 = n.id := of_decide_eq_true hpd
    subst hpl
    rcases adjConsistent_spec g hadj p hpg eid heid with ⟨e, hle, _, htgt⟩
    refine ⟨e, ?_, ?_, ?_⟩
    · rw [← hxval, hle]
    · rw [htgt, hp2]
    · rw [target_node, htgt, hp2, hn]

/-- Concrete two-node, one-edge store used by the traversal witnesses. -/
def wNodeA : Node := ⟨NodeId.fromUsize 1, 0, NodeType.Other 0⟩

/-- Second node of the witness store. -/
def wNodeB : Node := ⟨NodeId.fromUsize 2, 0, NodeType.Other 0⟩

/-- The single edge of the witness store, from node 1 to node 2. -/
def wEdge : Edge :=
  ⟨EdgeId.fromUsize 10, none, EdgeType.Other 0, NodeId.fromUsize 1, NodeId.fromUsize 2⟩

/-- Descriptor of the witness store. -/
def wDesc : PageGraphDescriptor := ⟨[], [], [], true, ⟨0⟩, ⟨0, 0⟩⟩

/-- The witness store itself. -/
def wStore : PageGraph :=
  PageGraph.new wDesc
    [(EdgeId.fromUsize 10, wEdge)]
    [(NodeId.fromUsize 1, wNodeA), (NodeId.fromUsize 2, wNodeB)]
    [((NodeId.fromUsize 1, NodeId.fromUsize 2), [EdgeId.fromUsize 10])]

/-- Witness for claim C2 at a concrete input: in the witness store, the edge
yielded by outgoing_edges of node 1 resolves back to node 1 via source_node. -/
theorem traversal_endpoints_witness :
    source_node wStore wEdge = some wNodeA := by
  have h := (traversal_endpoints wStore wNodeA (by decide) (by decide) (by decide)).1
  have hmem : some wEdge ∈ outgoing_edges wStore wNodeA := by decide
  rcases h (some wEdge) hmem with ⟨e, he, _, hsn⟩
  have heq : e = wEdge := by
    injection he with he2
    exact he2.symm
  rwa [heq] at hsn

theorem count_outgoingNeighbor (a b : NodeId) (ids : List EdgeId) :
    ∀ l : List ((NodeId × NodeId) × List EdgeId),
    ((a, b), ids) ∈ l → (l.map Prod.fst).Nodup →
    ((l.filter (fun p => decide (p.1.1 = a))).map (fun p => p.1.2)).count b = 1 := by
  intro l
  induction l with
  | nil =>
    intro h _
    simp at h
  | cons q l ih =>
    intro hmem hnodup
    rw [List.map_cons, List.nodup_cons] at hnodup
    obtain ⟨hq, hl⟩ := hnodup
    rcases List.mem_cons.mp hmem with heq | htail
    · subst heq
      rw [List.filter_cons, if_pos (by simp), List.map_cons]
      have hz : b ∉ (l.filter (fun p => decide (p.1.1 = a))).map (fun p => p.1.2) := by
        intro hcon
        rcases List.mem_map.mp hcon with ⟨r, hrf, hrb⟩
        rcases List.mem_filter.mp hrf with ⟨hrl, hrd⟩
        have hra : r.1.1 = a := of_decide_eq_true hrd
        apply hq
        have hkey : r.1 = (a, b) := by
          rw [← hra, ← hrb]
        rw [← hkey]
        exact List.mem_map.mpr ⟨r, hrl, rfl⟩
      rw [List.count_cons]
      rw [List.count_eq_zero.mpr hz]
      simp
    · by_cases hqa : q.1.1 = a
      · rw [List.filter_cons, if_pos (by simpa using hqa), List.map_cons]
        have hqb : q.1.2 ≠ b := by
          intro hcon
          apply hq
          have hkey : q.1 = (a, b) := by
            rw [← hqa, ← hcon]
          rw [hkey]
          exact List.mem_map.mpr ⟨((a, b), ids), htail, rfl⟩
        rw [List.count_cons]
        simp only [beq_iff_eq, hqb, if_false]
        exact ih htail hl
      · rw [List.filter_cons, if_neg (by simpa using hqa)]
        exact ih htail hl

theorem count_incomingNeighbor (a b : NodeId) (ids : List EdgeId) :
    ∀ l : List ((NodeId × NodeId) × List EdgeId),
    ((a, b), ids) ∈ l → (l.map Prod.fst).Nodup →
    ((l.filter (fun p => decide (p.1.2 = b))).map (fun p => p.1.1)).count a = 1 := by
  intro l
  induction l with
  | nil =>
    intro h _
    simp at h
  | cons q l ih =>
    intro hmem hnodup
    rw [List.map_cons, List.nodup_cons] at hnodup
    obtain ⟨hq, hl⟩ := hnodup
    rcases List.mem_cons.mp hmem with heq | htail
    · subst heq
      rw [List.filter_cons, if_pos (by simp), List.map_cons]
      have hz : a ∉ (l.filter (fun p => decide (p.1.2 = b))).map (fun p => p.1.1) := by
        intro hcon
        rcases List.mem_map.mp hcon with ⟨r, hrf, hra⟩
        rcases List.mem_filter.mp hrf with ⟨hrl, hrd⟩
        have hrb : r.1.2 = b := of_decide_eq_true hrd
        apply hq
        have hkey : r.1 = (a, b) := by
          rw [← hra, ← hrb]
        rw [← hkey]
        exact List.mem_map.mpr ⟨r, hrl, rfl⟩
      rw [List.count_cons]
      rw [List.count_eq_zero.mpr hz]
      simp
    · by_cases hqb : q.1.2 = b
      · rw [List.filter_cons, if_pos (by simpa using hqb), List.map_cons]
        have hqa : q.1.1 ≠ a := by
          intro hcon
          apply hq
          have hkey : q.1 = (a, b) := by
            rw [← hcon, ← hqb]
          rw [hkey]
          exact List.mem_map.mpr ⟨((a, b), ids), htail, rfl⟩
        rw [List.count_cons]
        simp only [beq_iff_eq, hqa, if_false]
        exact ih htail hl
      · rw [List.filter_cons, if_neg (by simpa using hqb)]
        exact ih htail hl

theorem count_map_lookupNode (g : PageGraph) (nb : Node) (b : NodeId)
    (hwf : nodesWellFormed g = true) (hb : lookupNode g b = some nb) :
    ∀ l : List NodeId, (l.map (lookupNode g)).count (some nb) = l.count b := by
  intro l
  induction l with
  | nil => rfl
  | cons x xs ih =>
    rw [List.map_cons, List.count_cons, List.count_cons, ih]
    congr 1
    by_cases hx : x = b
    · subst hx
      simp [hb]
    · have hne : lookupNode g x ≠ some nb := by
        intro hcon
        have hxid := lookupNode_id g x nb hwf hcon
        have hbid := lookupNode_id g b nb hwf hb
        exact hx (by rw [← hxid, hbid])
      simp [hne, hx]

/-- Claim C1: when the adjacency structure holds an entry for the ordered pair
(a, b) with k parallel edge ids, those k ids appear, in order and with
multiplicity, inside outgoing_edges of a and incoming_edges of b, while b
appears exactly once among the outgoing neighbors of a and a exactly once
among the incoming neighbors of b. -/
theorem parallel_edges_multiplicity (g : PageGraph) (a b : NodeId)
    (ids : List EdgeId) (na nb : Node) (k : Nat)
    (hmem : ((a, b), ids) ∈ g.graph)
    (hk : ids.length = k) (hk2 : 2 ≤ k)
    (hnodup : (g.graph.map Prod.fst).Nodup)
    (hwf : nodesWellFormed g = true)
    (hna : lookupNode g a = some na) (hnb : lookupNode g b = some nb) :
    ids.Sublist (outgoingEdgeIds g a) ∧
    ids.Sublist (incomingEdgeIds g b) ∧
    (ids.map (lookupEdge g)).Sublist (outgoing_edges g na) ∧
    (ids.map (lookupEdge g)).Sublist (incoming_edges g nb) ∧
    (outgoingNeighborIds g a).count b = 1 ∧
    (incomingNeighborIds g b).count a = 1 ∧
    (outgoing_neighbors g na).count (some nb) = 1 ∧
    (incoming_neighbors g nb).count (some na) = 1 := by
  have hnaid : na.id = a := lookupNode_id g a na hwf hna
  have hnbid : nb.id = b := lookupNode_id g b nb hwf hnb
  have hsubOut : ids.Sublist (outgoingEdgeIds g a) := by
    rw [outgoingEdgeIds]
    apply List.sublist_flatten_of_mem
    apply List.mem_map.mpr
    refine ⟨((a, b), ids), ?_, rfl⟩
    rw [List.mem_filter]
    exact ⟨hmem, by simp⟩
  have hsubIn : ids.Sublist (incomingEdgeIds g b) := by
    rw [incomingEdgeIds]
    apply List.sublist_flatten_of_mem
    apply List.mem_map.mpr
    refine ⟨((a, b), ids), ?_, rfl⟩
    rw [List.mem_filter]
    exact ⟨hmem, by simp⟩
  have hcntOut : (outgoingNeighborIds g a).count b = 1 :=
    count_outgoingNeighbor a b ids g.graph hmem hnodup
  have hcntIn : (incomingNeighborIds g b).count a = 1 :=
    count_incomingNeighbor a b ids g.graph hmem hnodup
  refine ⟨hsubOut, hsubIn, ?_, ?_, hcntOut, hcntIn, ?_, ?_⟩
  · rw [outgoing_edges, hnaid]
    exact hsubOut.map (lookupEdge g)
  · rw [incoming_edges, hnbid]
    exact hsubIn.map (lookupEdge g)
  · rw [outgoing_neighbors, hnaid, count_map_lookupNode g nb b hwf hnb]
    exact hcntOut
  · rw [incoming_neighbors, hnbid, count_map_lookupNode g na a hwf hna]
    exact hcntIn

/-- Parallel-edge store for the witness of claim C1: two edges, ids 10 and
11, both from node 1 to node 2. -/
def wStore2 : PageGraph :=
  PageGraph.new wDesc
    [(EdgeId.fromUsize 10, wEdge),
     (EdgeId.fromUsize 11,
      ⟨EdgeId.fromUsize 11, none, EdgeType.Other 1, NodeId.fromUsize 1, NodeId.fromUsize 2⟩)]
    [(NodeId.fromUsize 1, wNodeA), (NodeId.fromUsize 2, wNodeB)]
    [((NodeId.fromUsize 1, NodeId.fromUsize 2), [EdgeId.fromUsize 10, EdgeId.fromUsize 11])]

/-- Witness for claim C1 at a concrete input: with two parallel edges from
node 1 to node 2, node 2 appears exactly once among the outgoing neighbors of
node 1. -/
theorem parallel_edges_multiplicity_witness :
    (outgoingNeighborIds wStore2 (NodeId.fromUsize 1)).count (NodeId.fromUsize 2) = 1 :=
  (parallel_edges_multiplicity wStore2 (NodeId.fromUsize 1) (NodeId.fromUsize 2)
    [EdgeId.fromUsize 10, EdgeId.fromUsize 11] wNodeA wNodeB 2
    (by decide) (by decide) (by decide) (by decide) (by decide)
    (by decide) (by decide)).2.2.2.2.1

theorem allocIds_succ (n c : Nat) :
    allocIds (n + 1) c = EdgeId.fromUsize c :: allocIds n (c - 1) := by
  simp only [allocIds, List.range_succ_eq_map, List.map_cons, List.map_map, Nat.sub_zero]
  congr 1
  apply List.map_congr_left
  intro i _
  simp only [Function.comp_apply]
  congr 1
  omega

theorem mem_allocIds (n c : Nat) (id : EdgeId) (h : id ∈ allocIds n c) :
    ∃ i, i < n ∧ id = EdgeId.fromUsize (c - i) := by
  rw [allocIds] at h
  rcases List.mem_map.mp h with ⟨i, hi, hval⟩
  exact ⟨i, List.mem_range.mp hi, hval.symm⟩

theorem allocIds_nodup (n c : Nat) (h : n ≤ c + 1) : (allocIds n c).Nodup := by
  rw [allocIds]
  apply (List.nodup_range n).map_on
  intro i hi j hj heq
  rw [List.mem_range] at hi hj
  have hsub : c - i = c - j := by
    have := congrArg (fun e => e.gid.id) heq
    simpa [EdgeId.fromUsize, GraphItemId.fromUsize] using this
  omega

theorem allocRun_spec (edges : List (EdgeId × Edge)) : ∀ (n c : Nat),
    n ≤ c + 1 → (∀ p ∈ edges, (Prod.fst p).gid.id + n ≤ c) →
    allocRun edges n c = some (allocIds n c, c - n) := by
  intro n
  induction n with
  | zero =>
    intro c _ _
    simp [allocRun, allocIds]
  | succ m ih =>
    intro c hc hdisj
    have hfind : (edges.find? (fun p => decide (p.1 = EdgeId.fromUsize c))) = none := by
      rw [List.find?_eq_none]
      intro p hp
      simp only [decide_eq_true_eq]
      intro hcon
      have hd := hdisj p hp
      have hraw : p.1.gid.id = c := by rw [hcon]; rfl
      omega
    have hstep : new_edge_id edges c = some (EdgeId.fromUsize c, c - 1) := by
      rw [new_edge_id]
      simp [hfind]
    have hrec : allocRun edges m (c - 1) = some (allocIds m (c - 1), (c - 1) - m) := by
      apply ih (c - 1) (by omega)
      intro p hp
      have := hdisj p hp
      omega
    simp only [allocRun, hstep, hrec]
    rw [allocIds_succ]
    have : (c - 1) - m = c - (m + 1) := by omega
    rw [this]

/-- Claim C3: starting from the counter value set by `PageGraph::new`, any
finite sequence of allocator calls over an edge mapping whose raw ids are
numerically disjoint from the counter range returns pairwise-distinct ids,
each distinct from every id present in the edge mapping, and the internal
assertion never fires (the whole run returns successfully). -/
theorem new_edge_id_no_collision (edges : List (EdgeId × Edge)) (n : Nat)
    (hn : n ≤ USIZE_MAX)
    (hdisj : ∀ p ∈ edges, (Prod.fst p).gid.id + n ≤ USIZE_MAX) :
    allocRun edges n USIZE_MAX = some (allocIds n USIZE_MAX, USIZE_MAX - n) ∧
    (allocIds n USIZE_MAX).Nodup ∧
    (∀ id ∈ allocIds n USIZE_MAX, ∀ p ∈ edges, Prod.fst p ≠ id) := by
  refine ⟨allocRun_spec edges n USIZE_MAX (by omega) hdisj,
    allocIds_nodup n USIZE_MAX (by omega), ?_⟩
  intro id hid p hp hcon
  rcases mem_allocIds n USIZE_MAX id hid with ⟨i, hi, hval⟩
  have hd := hdisj p hp
  have hraw : p.1.gid.id = USIZE_MAX - i := by rw [hcon, hval]; rfl
  omega

/-- One-edge mapping used by the allocator witness. -/
def wAllocEdges : List (EdgeId × Edge) := [(EdgeId.fromUsize 5, wEdge)]

/-- Witness for claim C3 at a concrete input: two allocator calls over a
mapping holding trace id 5 succeed and return the two topmost counter
values. -/
theorem new_edge_id_no_collision_witness :
    allocRun wAllocEdges 2 USIZE_MAX = some (allocIds 2 USIZE_MAX, USIZE_MAX - 2) :=
  (new_edge_id_no_collision wAllocEdges 2 (by decide) (by decide)).1

/-- Claim C6 (settled against the spec-modelled query layer, since the Rust
definition of resources_matching_filters is not among the provided sources):
the returned mapping contains only entries of the node mapping whose node is
of Resource kind, and such an entry is present precisely when only_exceptions
is false and some rule matches the URL as a blocking rule, or only_exceptions
is true and some rule matches it as an exception rule; in particular, with
only_exceptions true a blocking-only match never suffices. -/
theorem resources_matching_filters_spec (g : PageGraph)
    (mB mE : List Char → List Char → Bool)
    (rules : List (List Char)) (oe : Bool) (p : NodeId × Node) :
    p ∈ resources_matching_filters g mB mE rules oe ↔
      p ∈ g.nodes ∧ ∃ url, (Prod.snd p).node_type = NodeType.Resource url ∧
        ((oe = false ∧ rules.any (fun r => mB r url) = true) ∨
         (oe = true ∧ rules.any (fun r => mE r url) = true)) := by
  rw [resources_matching_filters, List.mem_filter]
  constructor
  · rintro ⟨hmem, hpred⟩
    refine ⟨hmem, ?_⟩
    cases hnt : (Prod.snd p).node_type with
    | Resource url =>
      rw [hnt] at hpred
      simp only at hpred
      refine ⟨url, rfl, ?_⟩
      cases oe with
      | false =>
        left
        rw [if_neg (by simp)] at hpred
        exact ⟨rfl, hpred⟩
      | true =>
        right
        rw [if_pos rfl] at hpred
        exact ⟨rfl, hpred⟩
    | Other t =>
      rw [hnt] at hpred
      simp at hpred
  · rintro ⟨hmem, url, hurl, hcase⟩
    refine ⟨hmem, ?_⟩
    rw [hurl]
    simp only
    rcases hcase with ⟨hoe, hany⟩ | ⟨hoe, hany⟩
    · subst hoe
      rw [if_neg (by simp)]
      exact hany
    · subst hoe
      rw [if_pos rfl]
      exact hany

end PageGraphRust
